import Mathlib

/-!
# Pill Splitter: shallow embedding and verification

This file embeds the interaction logic of the pill-splitter application
(`src/App.tsx`) in Lean 4 and proves properties of the embedded code.

The application keeps an ordered list of rectangular "pills".  Pointer
gestures create pills (draw), move them (drag) and subdivide them (split
click).  The embedding below mirrors the React component's state and its
event handlers (`handleMouseMove`, `handleMouseDown`, `handleMouseUp`,
`handleClick`, and the per-pill `onMouseDownPill`) as pure functions on an
explicit application state.  Pixel coordinates are modelled as integers;
the opaque `color` display attribute is modelled as a natural number; the
random-UUID id supply is modelled as a counter (`nextId`) threaded through
the operations, so that each freshly created pill receives an id that was
never used before whenever all existing ids are below the counter.
-/

namespace PillSplitter

/-- Minimum width/height for a newly drawn pill (`MIN_DRAW_SIZE` in the source). -/
def MIN_DRAW_SIZE : Int := 40

/-- Minimum width/height for a pill part after splitting (`MIN_SPLIT_SIZE`). -/
def MIN_SPLIT_SIZE : Int := 20

/-- Border radius applied to every pill the code creates (`BORDER_RADIUS`). -/
def BORDER_RADIUS : Int := 20

/-- The fixed nudge distance used when a split is rejected as too small
(the local `moveAmount = 10` in `handleClick`). -/
def moveAmount : Int := 10

/-- A pill record, mirroring the object literals the source stores in the
`pills` array: id, top-left corner, extents, color and border radius. -/
structure Pill where
  id : Nat
  x : Int
  y : Int
  width : Int
  height : Int
  color : Nat
  borderRadius : Int
deriving DecidableEq, Repr

/-- The fields of a mouse event that the handlers read. -/
structure MouseEvent where
  clientX : Int
  clientY : Int
  button : Nat
deriving DecidableEq, Repr

/-- The crosshair split-lines state (`splitLines` in the source). -/
structure SplitLinesState where
  x : Int
  y : Int
  visible : Bool
deriving DecidableEq, Repr

/-- The full component state: the pill store plus the interaction
state (draw flag, draw anchor, draft pill, dragged-pill id and drag
offset) and the fresh-id counter modelling `crypto.randomUUID`. -/
structure AppState where
  pills : List Pill
  splitLines : SplitLinesState
  drawing : Bool
  drawStart : Int × Int
  tempPill : Option Pill
  draggingPillId : Option Nat
  dragOffset : Int × Int
  nextId : Nat
deriving DecidableEq, Repr

/-- The vertical-split test of `handleClick`:
`splitY > p.y && splitY < p.y + p.height` (strict at both ends). -/
def vertRange (p : Pill) (splitY : Int) : Prop :=
  p.y < splitY ∧ splitY < p.y + p.height

instance (p : Pill) (splitY : Int) : Decidable (vertRange p splitY) := by
  unfold vertRange; exact inferInstance

/-- The horizontal-split test of `handleClick`:
`splitX > p.x && splitX < p.x + p.width` (strict at both ends). -/
def horizRange (p : Pill) (splitX : Int) : Prop :=
  p.x < splitX ∧ splitX < p.x + p.width

instance (p : Pill) (splitX : Int) : Decidable (horizRange p splitX) := by
  unfold horizRange; exact inferInstance

/-- The body of the `prevPills.forEach` loop in `handleClick`, for a single
pill `p`: the list of pills that replace `p`, together with the updated
fresh-id counter.  The vertical test runs first; the horizontal test is
reached only when the vertical range test failed (in the source this is
the `!splitPerformed` conjunct, and `splitPerformed` is set in every
branch of the vertical test). -/
def splitOnePill (splitX splitY : Int) (p : Pill) (next : Nat) : List Pill × Nat :=
  if vertRange p splitY then
    let topPartHeight := splitY - p.y
    let bottomPartHeight := p.height - topPartHeight
    if topPartHeight < MIN_SPLIT_SIZE ∨ bottomPartHeight < MIN_SPLIT_SIZE then
      if topPartHeight < MIN_SPLIT_SIZE then
        ([{ p with y := p.y - moveAmount }], next)
      else
        ([{ p with y := p.y + moveAmount }], next)
    else
      ([⟨next, p.x, p.y, p.width, topPartHeight, p.color, BORDER_RADIUS⟩,
        ⟨next + 1, p.x, splitY, p.width, bottomPartHeight, p.color, BORDER_RADIUS⟩],
       next + 2)
  else if horizRange p splitX then
    let leftPartWidth := splitX - p.x
    let rightPartWidth := p.width - leftPartWidth
    if leftPartWidth < MIN_SPLIT_SIZE ∨ rightPartWidth < MIN_SPLIT_SIZE then
      if leftPartWidth < MIN_SPLIT_SIZE then
        ([{ p with x := p.x - moveAmount }], next)
      else
        ([{ p with x := p.x + moveAmount }], next)
    else
      ([⟨next, p.x, p.y, leftPartWidth, p.height, p.color, BORDER_RADIUS⟩,
        ⟨next + 1, splitX, p.y, rightPartWidth, p.height, p.color, BORDER_RADIUS⟩],
       next + 2)
  else
    ([p], next)

/-- The split engine: the whole `setPills` updater of `handleClick`,
folding `splitOnePill` over the store in input order and threading the
fresh-id counter. -/
def applySplit : List Pill → Int → Int → Nat → List Pill × Nat
  | [], _, _, next => ([], next)
  | p :: ps, splitX, splitY, next =>
    let r := splitOnePill splitX splitY p next
    let rest := applySplit ps splitX splitY r.2
    (r.1 ++ rest.1, rest.2)

/-- `handleMouseMove`: update the crosshair, recompute the draft pill
while drawing, and move the dragged pill (if any) to the cursor minus the
recorded drag offset. -/
def handleMouseMove (s : AppState) (e : MouseEvent) : AppState :=
  let s1 := { s with splitLines := ⟨e.clientX, e.clientY, true⟩ }
  let s2 :=
    match s1.drawing, s1.tempPill with
    | true, some t =>
      { s1 with tempPill := some { t with
          x := min e.clientX s1.drawStart.1,
          y := min e.clientY s1.drawStart.2,
          width := |e.clientX - s1.drawStart.1|,
          height := |e.clientY - s1.drawStart.2| } }
    | _, _ => s1
  match s2.draggingPillId with
  | some i =>
    { s2 with pills := s2.pills.map fun p =>
        if p.id = i then
          { p with x := e.clientX - s2.dragOffset.1, y := e.clientY - s2.dragOffset.2 }
        else p }
  | none => s2

/-- The `pills.some(...)` containment check of `handleMouseDown`:
the down event lands inside some pill's bounds (inclusive). -/
def clickedOnPill (pills : List Pill) (e : MouseEvent) : Prop :=
  ∃ p ∈ pills,
    p.x ≤ e.clientX ∧ e.clientX ≤ p.x + p.width ∧
    p.y ≤ e.clientY ∧ e.clientY ≤ p.y + p.height

instance (pills : List Pill) (e : MouseEvent) : Decidable (clickedOnPill pills e) := by
  unfold clickedOnPill; exact inferInstance

/-- `handleMouseDown` on the container: start drawing when the down event
missed every pill and used the primary button.  The freshly randomized
display color of the draft is passed in as `newColor` (modelling
`getRandomColor()`). -/
def handleMouseDown (s : AppState) (e : MouseEvent) (newColor : Nat) : AppState :=
  if ¬ clickedOnPill s.pills e ∧ e.button = 0 then
    { s with
        drawing := true,
        drawStart := (e.clientX, e.clientY),
        tempPill := some ⟨0, e.clientX, e.clientY, 0, 0, newColor, BORDER_RADIUS⟩ }
  else s

/-- `handleMouseUp`: when drawing, compute the final rectangle from the
anchor and the release point, commit it iff both extents reach
`MIN_DRAW_SIZE`, and discard the draft; in every case stop dragging. -/
def handleMouseUp (s : AppState) (e : MouseEvent) : AppState :=
  let s1 :=
    if s.drawing then
      let finalWidth := |e.clientX - s.drawStart.1|
      let finalHeight := |e.clientY - s.drawStart.2|
      let finalX := min e.clientX s.drawStart.1
      let finalY := min e.clientY s.drawStart.2
      let base := { s with drawing := false, tempPill := none }
      if MIN_DRAW_SIZE ≤ finalWidth ∧ MIN_DRAW_SIZE ≤ finalHeight then
        { base with
            pills := s.pills ++
              [⟨s.nextId, finalX, finalY, finalWidth, finalHeight,
                (s.tempPill.map Pill.color).getD 0, BORDER_RADIUS⟩],
            nextId := s.nextId + 1 }
      else base
    else s
  { s1 with draggingPillId := none }

/-- `handleClick`: if drawing or dragging, do nothing; otherwise run the
split engine at the click point over the whole store. -/
def handleClick (s : AppState) (e : MouseEvent) : AppState :=
  if s.drawing = true ∨ s.draggingPillId.isSome = true then s
  else
    let r := applySplit s.pills e.clientX e.clientY s.nextId
    { s with pills := r.1, nextId := r.2 }

/-- `onMouseDownPill` inside the `Pill` sub-component: start dragging the
pill under the pointer and record the offset from the pointer to the
pill's top-left corner.  The handler reads no button field. -/
def onMouseDownPill (s : AppState) (p : Pill) (e : MouseEvent) : AppState :=
  { s with
      draggingPillId := some p.id,
      dragOffset := (e.clientX - p.x, e.clientY - p.y) }

/-! ## Basic facts about the split engine -/

lemma applySplit_nil (sx sy : Int) (next : Nat) :
    applySplit [] sx sy next = ([], next) := rfl

lemma applySplit_cons (p : Pill) (ps : List Pill) (sx sy : Int) (next : Nat) :
    applySplit (p :: ps) sx sy next =
      ((splitOnePill sx sy p next).1 ++
        (applySplit ps sx sy (splitOnePill sx sy p next).2).1,
       (applySplit ps sx sy (splitOnePill sx sy p next).2).2) := rfl

lemma applySplit_append (l1 l2 : List Pill) (sx sy : Int) (next : Nat) :
    applySplit (l1 ++ l2) sx sy next =
      ((applySplit l1 sx sy next).1 ++
        (applySplit l2 sx sy (applySplit l1 sx sy next).2).1,
       (applySplit l2 sx sy (applySplit l1 sx sy next).2).2) := by
  induction l1 generalizing next with
  | nil => simp [applySplit]
  | cons p ps ih =>
    simp only [List.cons_append, applySplit_cons, ih, List.append_assoc]

lemma splitOnePill_valid_vert (sx sy : Int) (p : Pill) (next : Nat)
    (hv : vertRange p sy)
    (h1 : MIN_SPLIT_SIZE ≤ sy - p.y) (h2 : MIN_SPLIT_SIZE ≤ p.height - (sy - p.y)) :
    splitOnePill sx sy p next =
      ([⟨next, p.x, p.y, p.width, sy - p.y, p.color, BORDER_RADIUS⟩,
        ⟨next + 1, p.x, sy, p.width, p.height - (sy - p.y), p.color, BORDER_RADIUS⟩],
       next + 2) := by
  unfold splitOnePill
  rw [if_pos hv, if_neg (not_or.mpr ⟨not_lt.mpr h1, not_lt.mpr h2⟩)]

lemma splitOnePill_deg_vert (sx sy : Int) (p : Pill) (next : Nat)
    (hv : vertRange p sy)
    (hd : sy - p.y < MIN_SPLIT_SIZE ∨ p.height - (sy - p.y) < MIN_SPLIT_SIZE) :
    splitOnePill sx sy p next =
      ([if sy - p.y < MIN_SPLIT_SIZE then { p with y := p.y - moveAmount }
        else { p with y := p.y + moveAmount }], next) := by
  unfold splitOnePill
  rw [if_pos hv, if_pos hd]
  split_ifs <;> rfl

lemma splitOnePill_valid_horiz (sx sy : Int) (p : Pill) (next : Nat)
    (hv : ¬ vertRange p sy) (hh : horizRange p sx)
    (h1 : MIN_SPLIT_SIZE ≤ sx - p.x) (h2 : MIN_SPLIT_SIZE ≤ p.width - (sx - p.x)) :
    splitOnePill sx sy p next =
      ([⟨next, p.x, p.y, sx - p.x, p.height, p.color, BORDER_RADIUS⟩,
        ⟨next + 1, sx, p.y, p.width - (sx - p.x), p.height, p.color, BORDER_RADIUS⟩],
       next + 2) := by
  unfold splitOnePill
  rw [if_neg hv, if_pos hh, if_neg (not_or.mpr ⟨not_lt.mpr h1, not_lt.mpr h2⟩)]

lemma splitOnePill_deg_horiz (sx sy : Int) (p : Pill) (next : Nat)
    (hv : ¬ vertRange p sy) (hh : horizRange p sx)
    (hd : sx - p.x < MIN_SPLIT_SIZE ∨ p.width - (sx - p.x) < MIN_SPLIT_SIZE) :
    splitOnePill sx sy p next =
      ([if sx - p.x < MIN_SPLIT_SIZE then { p with x := p.x - moveAmount }
        else { p with x := p.x + moveAmount }], next) := by
  unfold splitOnePill
  rw [if_neg hv, if_pos hh, if_pos hd]
  split_ifs <;> rfl

lemma splitOnePill_noop (sx sy : Int) (p : Pill) (next : Nat)
    (hv : ¬ vertRange p sy) (hh : ¬ horizRange p sx) :
    splitOnePill sx sy p next = ([p], next) := by
  unfold splitOnePill
  rw [if_neg hv, if_neg hh]

lemma splitOnePill_snd_le (sx sy : Int) (p : Pill) (next : Nat) :
    next ≤ (splitOnePill sx sy p next).2 := by
  by_cases hv : vertRange p sy
  · by_cases hd : sy - p.y < MIN_SPLIT_SIZE ∨ p.height - (sy - p.y) < MIN_SPLIT_SIZE
    · rw [splitOnePill_deg_vert sx sy p next hv hd]
    · push_neg at hd
      rw [splitOnePill_valid_vert sx sy p next hv hd.1 hd.2]
      exact Nat.le_add_right next 2
  · by_cases hh : horizRange p sx
    · by_cases hd : sx - p.x < MIN_SPLIT_SIZE ∨ p.width - (sx - p.x) < MIN_SPLIT_SIZE
      · rw [splitOnePill_deg_horiz sx sy p next hv hh hd]
      · push_neg at hd
        rw [splitOnePill_valid_horiz sx sy p next hv hh hd.1 hd.2]
        exact Nat.le_add_right next 2
    · rw [splitOnePill_noop sx sy p next hv hh]

lemma applySplit_snd_le (l : List Pill) (sx sy : Int) (next : Nat) :
    next ≤ (applySplit l sx sy next).2 := by
  induction l generalizing next with
  | nil => simp [applySplit]
  | cons p ps ih =>
    rw [applySplit_cons]
    exact le_trans (splitOnePill_snd_le sx sy p next) (ih _)

lemma splitOnePill_length_le (sx sy : Int) (p : Pill) (next : Nat) :
    (splitOnePill sx sy p next).1.length ≤ 2 := by
  by_cases hv : vertRange p sy
  · by_cases hd : sy - p.y < MIN_SPLIT_SIZE ∨ p.height - (sy - p.y) < MIN_SPLIT_SIZE
    · rw [splitOnePill_deg_vert sx sy p next hv hd]
      simp
    · push_neg at hd
      rw [splitOnePill_valid_vert sx sy p next hv hd.1 hd.2]
      simp
  · by_cases hh : horizRange p sx
    · by_cases hd : sx - p.x < MIN_SPLIT_SIZE ∨ p.width - (sx - p.x) < MIN_SPLIT_SIZE
      · rw [splitOnePill_deg_horiz sx sy p next hv hh hd]
        simp
      · push_neg at hd
        rw [splitOnePill_valid_horiz sx sy p next hv hh hd.1 hd.2]
        simp
    · rw [splitOnePill_noop sx sy p next hv hh]
      simp

/-! ## Claim theorems -/

/-- C2: a split point strictly inside a pill's vertical span, with both
resulting heights at least `MIN_SPLIT_SIZE`, replaces the pill in place by
exactly two shapes in top/bottom order — same `x`/`width`, heights
`sy - p.y` and `p.height - (sy - p.y)` summing to `p.height`, the parent's
color, and fresh ids distinct from every id already in the store. -/
theorem split_valid_vertical_two_parts
    (pre post : List Pill) (p : Pill) (sx sy : Int) (next : Nat)
    (h1 : p.y < sy) (h2 : sy < p.y + p.height)
    (h3 : MIN_SPLIT_SIZE ≤ sy - p.y) (h4 : MIN_SPLIT_SIZE ≤ p.height - (sy - p.y))
    (hfresh : ∀ q ∈ pre ++ p :: post, q.id < next) :
    ∃ m, next ≤ m ∧
      (applySplit (pre ++ p :: post) sx sy next).1 =
        (applySplit pre sx sy next).1 ++
          ⟨m, p.x, p.y, p.width, sy - p.y, p.color, BORDER_RADIUS⟩ ::
          ⟨m + 1, p.x, sy, p.width, p.height - (sy - p.y), p.color, BORDER_RADIUS⟩ ::
          (applySplit post sx sy (m + 2)).1 ∧
      (∀ q ∈ pre ++ p :: post, q.id ≠ m ∧ q.id ≠ m + 1) ∧
      (sy - p.y) + (p.height - (sy - p.y)) = p.height := by
  refine ⟨(applySplit pre sx sy next).2, applySplit_snd_le pre sx sy next, ?_, ?_, by ring⟩
  · have happ := congrArg Prod.fst (applySplit_append pre (p :: post) sx sy next)
    rw [happ]
    rw [applySplit_cons, splitOnePill_valid_vert sx sy p _ ⟨h1, h2⟩ h3 h4]
    rfl
  · intro q hq
    have hlt : q.id < next := hfresh q hq
    have hle := applySplit_snd_le pre sx sy next
    omega

/-- Witness for C2 at the spec's scenario: the pill `{100,100,100,100}`
split at `(150,140)` yields the two parts `{100,100,100,40}` and
`{100,140,100,60}`. -/
theorem split_valid_vertical_two_parts_witness :
    ∃ m, 1 ≤ m ∧
      (applySplit ([] ++ ⟨0, 100, 100, 100, 100, 5, 20⟩ :: []) 150 140 1).1 =
        (applySplit [] 150 140 1).1 ++
          ⟨m, 100, 100, 100, 140 - 100, 5, BORDER_RADIUS⟩ ::
          ⟨m + 1, 100, 140, 100, 100 - (140 - 100), 5, BORDER_RADIUS⟩ ::
          (applySplit [] 150 140 (m + 2)).1 ∧
      (∀ q ∈ ([] ++ (⟨0, 100, 100, 100, 100, 5, 20⟩ : Pill) :: []), q.id ≠ m ∧ q.id ≠ m + 1) ∧
      ((140 : Int) - 100) + (100 - (140 - 100)) = 100 :=
  split_valid_vertical_two_parts [] [] ⟨0, 100, 100, 100, 100, 5, 20⟩ 150 140 1
    (by decide) (by decide) (by decide) (by decide) (by decide)

/-- C3: a split point strictly inside a pill's span on the tested axis
whose parts would be undersized replaces the pill by a single shape of
identical size, translated by exactly `moveAmount = 10` — toward negative
coordinates when the first (top/left) part is the undersized one, toward
positive coordinates otherwise — consuming no fresh ids (the per-shape
store count is unchanged); the horizontal mirror holds whenever the
horizontal test is the one evaluated (the vertical range test failed). -/
theorem split_degenerate_nudge
    (pre post : List Pill) (p : Pill) (sx sy : Int) (next : Nat) :
    (vertRange p sy →
      sy - p.y < MIN_SPLIT_SIZE ∨ p.height - (sy - p.y) < MIN_SPLIT_SIZE →
      splitOnePill sx sy p next =
        ([if sy - p.y < MIN_SPLIT_SIZE then { p with y := p.y - moveAmount }
          else { p with y := p.y + moveAmount }], next) ∧
      (applySplit (pre ++ p :: post) sx sy next).1 =
        (applySplit pre sx sy next).1 ++
          (if sy - p.y < MIN_SPLIT_SIZE then { p with y := p.y - moveAmount }
           else { p with y := p.y + moveAmount }) ::
          (applySplit post sx sy (applySplit pre sx sy next).2).1) ∧
    (¬ vertRange p sy → horizRange p sx →
      sx - p.x < MIN_SPLIT_SIZE ∨ p.width - (sx - p.x) < MIN_SPLIT_SIZE →
      splitOnePill sx sy p next =
        ([if sx - p.x < MIN_SPLIT_SIZE then { p with x := p.x - moveAmount }
          else { p with x := p.x + moveAmount }], next) ∧
      (applySplit (pre ++ p :: post) sx sy next).1 =
        (applySplit pre sx sy next).1 ++
          (if sx - p.x < MIN_SPLIT_SIZE then { p with x := p.x - moveAmount }
           else { p with x := p.x + moveAmount }) ::
          (applySplit post sx sy (applySplit pre sx sy next).2).1) := by
  constructor
  · intro hv hd
    have hone := splitOnePill_deg_vert sx sy p (applySplit pre sx sy next).2 hv hd
    refine ⟨splitOnePill_deg_vert sx sy p next hv hd, ?_⟩
    have happ := congrArg Prod.fst (applySplit_append pre (p :: post) sx sy next)
    rw [happ, applySplit_cons, hone]
    rfl
  · intro hv hh hd
    have hone := splitOnePill_deg_horiz sx sy p (applySplit pre sx sy next).2 hv hh hd
    refine ⟨splitOnePill_deg_horiz sx sy p next hv hh hd, ?_⟩
    have happ := congrArg Prod.fst (applySplit_append pre (p :: post) sx sy next)
    rw [happ, applySplit_cons, hone]
    rfl

/-- Witness for C3 at the spec's scenarios: splitting `{100,100,100,100}`
at `(150,110)` nudges it up to `y = 90`, and the horizontal mirror at
`(110,100)` (vertical test false there) nudges it left to `x = 90`. -/
theorem split_degenerate_nudge_witness :
    splitOnePill 150 110 ⟨0, 100, 100, 100, 100, 7, 20⟩ 3 =
      ([⟨0, 100, 90, 100, 100, 7, 20⟩], 3) ∧
    splitOnePill 110 100 ⟨0, 100, 100, 100, 100, 7, 20⟩ 3 =
      ([⟨0, 90, 100, 100, 100, 7, 20⟩], 3) := by
  constructor
  · have h := ((split_degenerate_nudge [] [] ⟨0, 100, 100, 100, 100, 7, 20⟩ 150 110 3).1
      (by decide) (by decide)).1
    simpa using h
  · have h := ((split_degenerate_nudge [] [] ⟨0, 100, 100, 100, 100, 7, 20⟩ 110 100 3).2
      (by decide) (by decide) (by decide)).1
    simpa using h

/-- C4: a single click changes each shape at most once: the per-shape
result never has more than two pieces (so never a four-way split, and
never a split combined with a nudge), and when the vertical range test
holds the outcome is independent of the click's x-coordinate — the
horizontal test is not evaluated for that shape. -/
theorem split_at_most_one_change (p : Pill) (sx sx2 sy : Int) (next : Nat) :
    (splitOnePill sx sy p next).1.length ≤ 2 ∧
    (vertRange p sy → splitOnePill sx sy p next = splitOnePill sx2 sy p next) := by
  constructor
  · exact splitOnePill_length_le sx sy p next
  · intro hv
    unfold splitOnePill
    simp only [if_pos hv]

/-- Witness for C4: at a point inside both axes of `{100,100,100,100}`,
the result ignores the x-coordinate and has at most two pieces. -/
theorem split_at_most_one_change_witness :
    (splitOnePill 150 150 ⟨0, 100, 100, 100, 100, 3, 20⟩ 8).1.length ≤ 2 ∧
    splitOnePill 150 150 ⟨0, 100, 100, 100, 100, 3, 20⟩ 8 =
      splitOnePill 999 150 ⟨0, 100, 100, 100, 100, 3, 20⟩ 8 := by
  have h := split_at_most_one_change ⟨0, 100, 100, 100, 100, 3, 20⟩ 150 999 150 8
  exact ⟨h.1, h.2 (by decide)⟩

/-! ## Further helper lemmas -/

lemma applySplit_outside (l : List Pill) (sx sy : Int) (next : Nat)
    (h : ∀ p ∈ l, ¬ vertRange p sy ∧ ¬ horizRange p sx) :
    applySplit l sx sy next = (l, next) := by
  induction l generalizing next with
  | nil => rfl
  | cons p ps ih =>
    have hp := h p (List.mem_cons_self p ps)
    rw [applySplit_cons, splitOnePill_noop sx sy p next hp.1 hp.2,
      ih _ (fun q hq => h q (List.mem_cons_of_mem p hq))]
    rfl

lemma handleMouseUp_drawing (s : AppState) (e : MouseEvent) (t : Pill)
    (hd : s.drawing = true) (ht : s.tempPill = some t) :
    handleMouseUp s e =
      if MIN_DRAW_SIZE ≤ |e.clientX - s.drawStart.1| ∧
          MIN_DRAW_SIZE ≤ |e.clientY - s.drawStart.2| then
        { s with
            drawing := false, tempPill := none, draggingPillId := none,
            pills := s.pills ++
              [⟨s.nextId, min e.clientX s.drawStart.1, min e.clientY s.drawStart.2,
                |e.clientX - s.drawStart.1|, |e.clientY - s.drawStart.2|,
                t.color, BORDER_RADIUS⟩],
            nextId := s.nextId + 1 }
      else { s with drawing := false, tempPill := none, draggingPillId := none } := by
  by_cases hsize : MIN_DRAW_SIZE ≤ |e.clientX - s.drawStart.1| ∧
      MIN_DRAW_SIZE ≤ |e.clientY - s.drawStart.2|
  · rw [if_pos hsize]
    unfold handleMouseUp
    rw [hd, ht]
    simp only [Option.map_some', Option.getD_some, if_true]
    rw [if_pos hsize]
  · rw [if_neg hsize]
    unfold handleMouseUp
    rw [hd, ht]
    simp only [Option.map_some', Option.getD_some, if_true]
    rw [if_neg hsize]

lemma handleMouseMove_pills_none (s : AppState) (e : MouseEvent)
    (hdg : s.draggingPillId = none) :
    (handleMouseMove s e).pills = s.pills := by
  unfold handleMouseMove
  cases hsd : s.drawing <;> cases hst : s.tempPill <;> simp [hdg, hsd, hst]

lemma handleMouseMove_pills_drag (s : AppState) (e : MouseEvent) (i : Nat)
    (hdg : s.draggingPillId = some i) :
    (handleMouseMove s e).pills = s.pills.map (fun p =>
      if p.id = i then
        { p with x := e.clientX - s.dragOffset.1, y := e.clientY - s.dragOffset.2 }
      else p) := by
  unfold handleMouseMove
  cases hsd : s.drawing <;> cases hst : s.tempPill <;> simp [hdg, hsd, hst]

/-- The shape-store invariant of the spec: every stored pill has both
extents at least `MIN_SPLIT_SIZE`. -/
def SizeInv (pills : List Pill) : Prop :=
  ∀ p ∈ pills, MIN_SPLIT_SIZE ≤ p.width ∧ MIN_SPLIT_SIZE ≤ p.height

instance (pills : List Pill) : Decidable (SizeInv pills) := by
  unfold SizeInv; exact inferInstance

lemma splitOnePill_size (sx sy : Int) (p : Pill) (next : Nat)
    (hw : MIN_SPLIT_SIZE ≤ p.width) (hh : MIN_SPLIT_SIZE ≤ p.height) :
    ∀ q ∈ (splitOnePill sx sy p next).1,
      MIN_SPLIT_SIZE ≤ q.width ∧ MIN_SPLIT_SIZE ≤ q.height := by
  by_cases hv : vertRange p sy
  · by_cases hd : sy - p.y < MIN_SPLIT_SIZE ∨ p.height - (sy - p.y) < MIN_SPLIT_SIZE
    · rw [splitOnePill_deg_vert sx sy p next hv hd]
      intro q hq
      simp only [List.mem_singleton] at hq
      subst hq
      split_ifs <;> exact ⟨hw, hh⟩
    · push_neg at hd
      rw [splitOnePill_valid_vert sx sy p next hv hd.1 hd.2]
      intro q hq
      simp only [List.mem_cons, List.mem_singleton, List.not_mem_nil, or_false] at hq
      rcases hq with rfl | rfl
      · exact ⟨hw, hd.1⟩
      · exact ⟨hw, hd.2⟩
  · by_cases hh2 : horizRange p sx
    · by_cases hd : sx - p.x < MIN_SPLIT_SIZE ∨ p.width - (sx - p.x) < MIN_SPLIT_SIZE
      · rw [splitOnePill_deg_horiz sx sy p next hv hh2 hd]
        intro q hq
        simp only [List.mem_singleton] at hq
        subst hq
        split_ifs <;> exact ⟨hw, hh⟩
      · push_neg at hd
        rw [splitOnePill_valid_horiz sx sy p next hv hh2 hd.1 hd.2]
        intro q hq
        simp only [List.mem_cons, List.mem_singleton, List.not_mem_nil, or_false] at hq
        rcases hq with rfl | rfl
        · exact ⟨hd.1, hh⟩
        · exact ⟨hd.2, hh⟩
    · rw [splitOnePill_noop sx sy p next hv hh2]
      intro q hq
      simp only [List.mem_singleton] at hq
      subst hq
      exact ⟨hw, hh⟩

lemma applySplit_size (l : List Pill) (sx sy : Int) (next : Nat) :
    SizeInv l → SizeInv (applySplit l sx sy next).1 := by
  induction l generalizing next with
  | nil =>
    intro _ q hq
    simp [applySplit] at hq
  | cons p ps ih =>
    intro h q hq
    rw [applySplit_cons] at hq
    rcases List.mem_append.1 hq with hq | hq
    · exact splitOnePill_size sx sy p next
        (h p (List.mem_cons_self p ps)).1 (h p (List.mem_cons_self p ps)).2 q hq
    · exact ih _ (fun r hr => h r (List.mem_cons_of_mem p hr)) q hq

/-- C5: a completed draw gesture with both final extents at least
`MIN_DRAW_SIZE` appends exactly one pill with the normalized rectangle's
geometry, the draft's color and a fresh id to the end of the store; a
smaller final rectangle leaves the store unchanged; in both cases the
draft pill is discarded and the machine leaves the drawing state. -/
theorem draw_commit (s : AppState) (e : MouseEvent) (t : Pill)
    (hd : s.drawing = true) (ht : s.tempPill = some t)
    (hfresh : ∀ q ∈ s.pills, q.id < s.nextId) :
    (MIN_DRAW_SIZE ≤ |e.clientX - s.drawStart.1| ∧
        MIN_DRAW_SIZE ≤ |e.clientY - s.drawStart.2| →
      (handleMouseUp s e).pills =
        s.pills ++
          [⟨s.nextId, min e.clientX s.drawStart.1, min e.clientY s.drawStart.2,
            |e.clientX - s.drawStart.1|, |e.clientY - s.drawStart.2|,
            t.color, BORDER_RADIUS⟩] ∧
      (∀ q ∈ s.pills, q.id ≠ s.nextId)) ∧
    (¬ (MIN_DRAW_SIZE ≤ |e.clientX - s.drawStart.1| ∧
        MIN_DRAW_SIZE ≤ |e.clientY - s.drawStart.2|) →
      (handleMouseUp s e).pills = s.pills) ∧
    (handleMouseUp s e).tempPill = none ∧
    (handleMouseUp s e).drawing = false ∧
    (handleMouseUp s e).draggingPillId = none := by
  have hchar := handleMouseUp_drawing s e t hd ht
  by_cases hsize : MIN_DRAW_SIZE ≤ |e.clientX - s.drawStart.1| ∧
      MIN_DRAW_SIZE ≤ |e.clientY - s.drawStart.2|
  · rw [hchar, if_pos hsize]
    exact ⟨fun _ => ⟨rfl, fun q hq => Nat.ne_of_lt (hfresh q hq)⟩,
      fun hc => absurd hsize hc, rfl, rfl, rfl⟩
  · rw [hchar, if_neg hsize]
    exact ⟨fun hc => absurd hc hsize, fun _ => rfl, rfl, rfl, rfl⟩

/-- Witness for C5: releasing a draw anchored at `(10,10)` at `(60,70)`
commits the pill `{x:10, y:10, w:50, h:60}`; the draft is discarded. -/
theorem draw_commit_witness :
    (handleMouseUp
        ⟨[], ⟨0, 0, false⟩, true, (10, 10), some ⟨0, 10, 10, 0, 0, 9, 20⟩, none, (0, 0), 0⟩
        ⟨60, 70, 0⟩).pills = [⟨0, 10, 10, 50, 60, 9, 20⟩] ∧
    (handleMouseUp
        ⟨[], ⟨0, 0, false⟩, true, (10, 10), some ⟨0, 10, 10, 0, 0, 9, 20⟩, none, (0, 0), 0⟩
        ⟨60, 70, 0⟩).tempPill = none := by
  have h := draw_commit
    ⟨[], ⟨0, 0, false⟩, true, (10, 10), some ⟨0, 10, 10, 0, 0, 9, 20⟩, none, (0, 0), 0⟩
    ⟨60, 70, 0⟩ ⟨0, 10, 10, 0, 0, 9, 20⟩ rfl rfl (by decide)
  refine ⟨?_, h.2.2.1⟩
  rw [(h.1 (by decide)).1]
  decide

/-- C6: during a drag of the pill with id `i` recorded with offset
`(dx, dy)`, a pointer move to `(mx, my)` sets that pill's position to
exactly `(mx - dx, my - dy)`, never alters any width or height, and
leaves every other pill unchanged. -/
theorem drag_move_position (s : AppState) (e : MouseEvent) (i : Nat)
    (hdrag : s.draggingPillId = some i) :
    (handleMouseMove s e).pills = s.pills.map (fun p =>
      if p.id = i then
        { p with x := e.clientX - s.dragOffset.1, y := e.clientY - s.dragOffset.2 }
      else p) ∧
    ∀ q ∈ (handleMouseMove s e).pills, ∃ p ∈ s.pills,
      q.width = p.width ∧ q.height = p.height ∧ q.id = p.id ∧
      (p.id = i → q.x = e.clientX - s.dragOffset.1 ∧ q.y = e.clientY - s.dragOffset.2) ∧
      (p.id ≠ i → q = p) := by
  have hmap := handleMouseMove_pills_drag s e i hdrag
  refine ⟨hmap, ?_⟩
  intro q hq
  rw [hmap] at hq
  obtain ⟨p, hp, rfl⟩ := List.mem_map.1 hq
  by_cases hpi : p.id = i
  · exact ⟨p, hp, by simp [hpi]⟩
  · exact ⟨p, hp, by simp [hpi]⟩

/-- Witness for C6: dragging pill 0 with offset `(5,7)`, a move to
`(200,300)` puts it at `(195,293)` and leaves pill 1 untouched. -/
theorem drag_move_position_witness :
    (handleMouseMove
        ⟨[⟨0, 100, 100, 100, 100, 1, 20⟩, ⟨1, 300, 300, 50, 60, 2, 20⟩],
          ⟨0, 0, false⟩, false, (0, 0), none, some 0, (5, 7), 2⟩
        ⟨200, 300, 0⟩).pills =
      [⟨0, 195, 293, 100, 100, 1, 20⟩, ⟨1, 300, 300, 50, 60, 2, 20⟩] := by
  rw [(drag_move_position
    ⟨[⟨0, 100, 100, 100, 100, 1, 20⟩, ⟨1, 300, 300, 50, 60, 2, 20⟩],
      ⟨0, 0, false⟩, false, (0, 0), none, some 0, (5, 7), 2⟩
    ⟨200, 300, 0⟩ 0 rfl).1]
  decide

/-- C7: a split click at a point with neither coordinate strictly inside
any stored pill's corresponding span leaves the store field-for-field
unchanged (same pills, same fields, same order), both at the split-engine
level and through `handleClick`. -/
theorem split_outside_noop (s : AppState) (e : MouseEvent) (next : Nat)
    (h : ∀ p ∈ s.pills, ¬ vertRange p e.clientY ∧ ¬ horizRange p e.clientX) :
    applySplit s.pills e.clientX e.clientY next = (s.pills, next) ∧
    (handleClick s e).pills = s.pills := by
  refine ⟨applySplit_outside _ _ _ _ h, ?_⟩
  unfold handleClick
  split_ifs with hg
  · rfl
  · simpa using congrArg Prod.fst
      (applySplit_outside s.pills e.clientX e.clientY s.nextId h)

/-- Witness for C7: clicking at `(50,50)`, outside the only pill
`{100,100,100,100}`, changes nothing. -/
theorem split_outside_noop_witness :
    applySplit [⟨0, 100, 100, 100, 100, 2, 20⟩] 50 50 1 =
      ([⟨0, 100, 100, 100, 100, 2, 20⟩], 1) ∧
    (handleClick
        ⟨[⟨0, 100, 100, 100, 100, 2, 20⟩], ⟨0, 0, false⟩, false, (0, 0), none, none, (0, 0), 1⟩
        ⟨50, 50, 0⟩).pills = [⟨0, 100, 100, 100, 100, 2, 20⟩] :=
  split_outside_noop
    ⟨[⟨0, 100, 100, 100, 100, 2, 20⟩], ⟨0, 0, false⟩, false, (0, 0), none, none, (0, 0), 1⟩
    ⟨50, 50, 0⟩ 1 (by decide)

/-- C8: a split line lying exactly on a pill's boundary never triggers
the corresponding range test (the tests are strict at both ends), and a
pill touched only on its boundary on both axes passes through the split
engine unchanged. -/
theorem boundary_never_splits (p : Pill) (sx sy : Int) (next : Nat) :
    ((sy = p.y ∨ sy = p.y + p.height) → ¬ vertRange p sy) ∧
    ((sx = p.x ∨ sx = p.x + p.width) → ¬ horizRange p sx) ∧
    ((sy = p.y ∨ sy = p.y + p.height) → (sx = p.x ∨ sx = p.x + p.width) →
      splitOnePill sx sy p next = ([p], next)) := by
  have hv : (sy = p.y ∨ sy = p.y + p.height) → ¬ vertRange p sy := by
    rintro (rfl | rfl) ⟨ha, hb⟩
    · exact lt_irrefl _ ha
    · exact lt_irrefl _ hb
  have hh : (sx = p.x ∨ sx = p.x + p.width) → ¬ horizRange p sx := by
    rintro (rfl | rfl) ⟨ha, hb⟩
    · exact lt_irrefl _ ha
    · exact lt_irrefl _ hb
  exact ⟨hv, hh, fun h1 h2 => splitOnePill_noop sx sy p next (hv h1) (hh h2)⟩

/-- Witness for C8: the click `(200,100)` lies exactly on the top edge
and the right edge of `{100,100,100,100}`; neither test fires and the
pill is untouched. -/
theorem boundary_never_splits_witness :
    ¬ vertRange ⟨0, 100, 100, 100, 100, 1, 20⟩ 100 ∧
    ¬ horizRange ⟨0, 100, 100, 100, 100, 1, 20⟩ 200 ∧
    splitOnePill 200 100 ⟨0, 100, 100, 100, 100, 1, 20⟩ 0 =
      ([⟨0, 100, 100, 100, 100, 1, 20⟩], 0) := by
  have h := boundary_never_splits ⟨0, 100, 100, 100, 100, 1, 20⟩ 200 100 0
  exact ⟨h.1 (by decide), h.2.1 (by decide), h.2.2 (by decide) (by decide)⟩

/-- C9: the minimum-size invariant — every stored pill has width and
height at least `MIN_SPLIT_SIZE` (hence non-negative) — is preserved by
the split engine (valid splits emit parts of size at least
`MIN_SPLIT_SIZE`, nudges only translate), by `handleClick`, by a draw
commit (which demands both extents at least `MIN_DRAW_SIZE`) and by a
drag move (which only translates). -/
theorem min_size_invariant (s : AppState) (e : MouseEvent) (shapes : List Pill)
    (sx sy : Int) (next : Nat)
    (hs : SizeInv s.pills) (hsh : SizeInv shapes) :
    SizeInv (applySplit shapes sx sy next).1 ∧
    SizeInv (handleClick s e).pills ∧
    SizeInv (handleMouseUp s e).pills ∧
    SizeInv (handleMouseMove s e).pills ∧
    (∀ p ∈ (applySplit shapes sx sy next).1, 0 ≤ p.width ∧ 0 ≤ p.height) ∧
    (∀ p ∈ (handleMouseUp s e).pills, 0 ≤ p.width ∧ 0 ≤ p.height) := by
  have hnn : ∀ (l : List Pill), SizeInv l → ∀ p ∈ l, 0 ≤ p.width ∧ 0 ≤ p.height := by
    intro l hl p hp
    have h20 : (0 : Int) ≤ MIN_SPLIT_SIZE := by norm_num [MIN_SPLIT_SIZE]
    exact ⟨le_trans h20 (hl p hp).1, le_trans h20 (hl p hp).2⟩
  have hsplit : SizeInv (applySplit shapes sx sy next).1 := applySplit_size shapes sx sy next hsh
  have hclick : SizeInv (handleClick s e).pills := by
    unfold handleClick
    split_ifs with hg
    · exact hs
    · exact applySplit_size s.pills e.clientX e.clientY s.nextId hs
  have hup : SizeInv (handleMouseUp s e).pills := by
    unfold handleMouseUp
    cases hd : s.drawing
    · simpa using hs
    · by_cases hsize : MIN_DRAW_SIZE ≤ |e.clientX - s.drawStart.1| ∧
          MIN_DRAW_SIZE ≤ |e.clientY - s.drawStart.2|
      · simp only [if_pos rfl, if_pos hsize]
        intro q hq
        rcases List.mem_append.1 hq with hq | hq
        · exact hs q hq
        · simp only [List.mem_singleton] at hq
          subst hq
          have h2040 : MIN_SPLIT_SIZE ≤ MIN_DRAW_SIZE := by
            norm_num [MIN_SPLIT_SIZE, MIN_DRAW_SIZE]
          exact ⟨le_trans h2040 hsize.1, le_trans h2040 hsize.2⟩
      · simp only [if_pos rfl, if_neg hsize]
        exact hs
  have hmove : SizeInv (handleMouseMove s e).pills := by
    rcases hdg : s.draggingPillId with _ | i
    · rw [handleMouseMove_pills_none s e hdg]
      exact hs
    · rw [handleMouseMove_pills_drag s e i hdg]
      intro q hq
      obtain ⟨p, hp, rfl⟩ := List.mem_map.1 hq
      by_cases hpi : p.id = i
      · rw [if_pos hpi]
        exact hs p hp
      · rw [if_neg hpi]
        exact hs p hp
  exact ⟨hsplit, hclick, hup, hmove, hnn _ hsplit, hnn _ hup⟩

/-- Witness for C9 on a concrete store and click. -/
theorem min_size_invariant_witness :
    SizeInv (applySplit [⟨0, 100, 100, 100, 100, 1, 20⟩] 150 140 1).1 ∧
    SizeInv (handleClick
        ⟨[⟨0, 100, 100, 100, 100, 1, 20⟩], ⟨0, 0, false⟩, false, (0, 0), none, none, (0, 0), 1⟩
        ⟨150, 140, 0⟩).pills := by
  have h := min_size_invariant
    ⟨[⟨0, 100, 100, 100, 100, 1, 20⟩], ⟨0, 0, false⟩, false, (0, 0), none, none, (0, 0), 1⟩
    ⟨150, 140, 0⟩ [⟨0, 100, 100, 100, 100, 1, 20⟩] 150 140 1 (by decide) (by decide)
  exact ⟨h.1, h.2.1⟩

/-- C10: `onMouseDownPill` starts a drag of the pill under the pointer
regardless of the mouse button (it never reads the button and records the
offset from the pointer to the pill's top-left corner), while a
non-primary pointer-down on the background leaves the state unchanged
(`handleMouseDown` requires button 0 to start drawing). -/
theorem pill_drag_any_button (s : AppState) (p : Pill) (e e2 : MouseEvent) (c : Nat)
    (hx : e.clientX = e2.clientX) (hy : e.clientY = e2.clientY) :
    onMouseDownPill s p e = onMouseDownPill s p e2 ∧
    (onMouseDownPill s p e).draggingPillId = some p.id ∧
    (onMouseDownPill s p e).dragOffset = (e.clientX - p.x, e.clientY - p.y) ∧
    (e.button ≠ 0 → handleMouseDown s e c = s) := by
  refine ⟨?_, rfl, rfl, ?_⟩
  · unfold onMouseDownPill
    rw [hx, hy]
  · intro hb
    unfold handleMouseDown
    rw [if_neg (fun hcond => hb hcond.2)]

/-- Witness for C10: a right-button (button 2) down on a pill starts the
same drag as a left-button down at the same point, and a right-button
down on the background is a no-op. -/
theorem pill_drag_any_button_witness :
    onMouseDownPill
        ⟨[⟨0, 100, 100, 100, 100, 1, 20⟩], ⟨0, 0, false⟩, false, (0, 0), none, none, (0, 0), 1⟩
        ⟨0, 100, 100, 100, 100, 1, 20⟩ ⟨150, 150, 2⟩ =
      onMouseDownPill
        ⟨[⟨0, 100, 100, 100, 100, 1, 20⟩], ⟨0, 0, false⟩, false, (0, 0), none, none, (0, 0), 1⟩
        ⟨0, 100, 100, 100, 100, 1, 20⟩ ⟨150, 150, 0⟩ ∧
    (onMouseDownPill
        ⟨[⟨0, 100, 100, 100, 100, 1, 20⟩], ⟨0, 0, false⟩, false, (0, 0), none, none, (0, 0), 1⟩
        ⟨0, 100, 100, 100, 100, 1, 20⟩ ⟨150, 150, 2⟩).draggingPillId = some 0 ∧
    handleMouseDown
        ⟨[], ⟨0, 0, false⟩, false, (0, 0), none, none, (0, 0), 0⟩ ⟨50, 50, 2⟩ 6 =
      ⟨[], ⟨0, 0, false⟩, false, (0, 0), none, none, (0, 0), 0⟩ := by
  have h1 := pill_drag_any_button
    ⟨[⟨0, 100, 100, 100, 100, 1, 20⟩], ⟨0, 0, false⟩, false, (0, 0), none, none, (0, 0), 1⟩
    ⟨0, 100, 100, 100, 100, 1, 20⟩ ⟨150, 150, 2⟩ ⟨150, 150, 0⟩ 6 rfl rfl
  have h2 := pill_drag_any_button
    ⟨[], ⟨0, 0, false⟩, false, (0, 0), none, none, (0, 0), 0⟩
    ⟨0, 100, 100, 100, 100, 1, 20⟩ ⟨50, 50, 2⟩ ⟨50, 50, 2⟩ 6 rfl rfl
  exact ⟨h1.1, h1.2.1, h2.2.2.2 (by decide)⟩

/-- C1 (failing-input evaluation): in a dragging state holding the pill
`{100,100,100,100}`, processing pointer-up at `(150,140)` and then the
synthetic click at the same point does NOT leave the store as pointer-up
left it: `handleMouseUp` clears `draggingPillId` before the click is
processed, so the click's guard passes and the click splits the dragged
pill into two parts. -/
theorem post_drag_click_splits :
    (handleMouseUp
        ⟨[⟨0, 100, 100, 100, 100, 4, 20⟩], ⟨0, 0, false⟩, false, (0, 0), none, some 0, (50, 40), 1⟩
        ⟨150, 140, 0⟩).pills = [⟨0, 100, 100, 100, 100, 4, 20⟩] ∧
    (handleMouseUp
        ⟨[⟨0, 100, 100, 100, 100, 4, 20⟩], ⟨0, 0, false⟩, false, (0, 0), none, some 0, (50, 40), 1⟩
        ⟨150, 140, 0⟩).draggingPillId = none ∧
    (handleClick
        (handleMouseUp
          ⟨[⟨0, 100, 100, 100, 100, 4, 20⟩], ⟨0, 0, false⟩, false, (0, 0), none, some 0, (50, 40), 1⟩
          ⟨150, 140, 0⟩)
        ⟨150, 140, 0⟩).pills =
      [⟨1, 100, 100, 100, 40, 4, 20⟩, ⟨2, 100, 140, 100, 60, 4, 20⟩] ∧
    (handleClick
        (handleMouseUp
          ⟨[⟨0, 100, 100, 100, 100, 4, 20⟩], ⟨0, 0, false⟩, false, (0, 0), none, some 0, (50, 40), 1⟩
          ⟨150, 140, 0⟩)
        ⟨150, 140, 0⟩).pills ≠
      (handleMouseUp
        ⟨[⟨0, 100, 100, 100, 100, 4, 20⟩], ⟨0, 0, false⟩, false, (0, 0), none, some 0, (50, 40), 1⟩
        ⟨150, 140, 0⟩).pills := by decide

end PillSplitter
